import Mathlib

/-!
# Verification of the Flowise encryption service

Shallow embedding of `packages/server/src/services/encryption/index.ts`:
key admission (`generate` / `create`), key selection (`get`), the credential
cipher (`encrypt` / `decrypt`) and the resync engine (`resync`).

The persistence layer (TypeORM repositories), the association-store service
(`encryptionCredential`), the credential service (`credentials`), the cipher
primitive (crypto-js AES) and JSON serialization are external collaborators
whose code is not part of the service file; they are modelled from the spec
(sections 2, 3 and 6) as operations on an explicit database state `DB`.
Randomness (`randomBytes(24)`) is threaded as an explicit parameter.
-/

namespace Flowise

/-- A row of the `encryption` table (spec: KeyMaterial): store-assigned `id`,
human `name`, secret `encryptionKey` (the key bytes) and the store timestamp
`updatedDate`.  Identifiers and timestamps are modelled as naturals assigned
by the store in creation order. -/
structure Encryption where
  id : Nat
  name : String
  encryptionKey : String
  updatedDate : Nat
deriving Repr, DecidableEq

/-- Modelled from the spec: the cipher primitive (crypto-js AES) is an
external black box with `encrypt(plaintext, key) = ciphertext` and a
`decrypt` that fails deterministically on key mismatch.  A ciphertext is
modelled as the payload together with the key that produced it. -/
structure CipherText where
  payload : String
  key : String
deriving Repr, DecidableEq

/-- Modelled from the spec: `AES.encrypt(data, key)`. -/
def AESencrypt (data : String) (key : String) : CipherText :=
  ⟨data, key⟩

/-- Modelled from the spec: `AES.decrypt(ciphertext, key)` followed by the
JSON parse of the resulting plaintext; it succeeds exactly when the supplied
key is the key the ciphertext was produced with (the authenticated cipher
rejects mismatched keys; with crypto-js the mismatch surfaces as a JSON
parse failure).  The JSON serialization layer is canonical and invertible,
so a plaintext object is identified with its serialized form (`String`). -/
def AESdecrypt (ct : CipherText) (key : String) : Option String :=
  if ct.key = key then some ct.payload else none

/-- A row of the `credential` table: `id`, ciphertext blob `encryptedData`
and the `isEncryptionKeyLost` flag.  Only those three fields are touched by
the encryption service. -/
structure Credential where
  id : String
  encryptedData : CipherText
  isEncryptionKeyLost : Bool
deriving Repr, DecidableEq

/-- A row of the `encryption_credential` table (spec: Association):
`(encryptionId, credentialId)`. -/
structure AssocRow where
  encryptionId : Nat
  credentialId : String
deriving Repr, DecidableEq

/-- The database state: the three tables plus the store-managed id counter
and clock used to assign `id` / `updatedDate` on insertion. -/
structure DB where
  encryptions : List Encryption
  credentials : List Credential
  assocRows : List AssocRow
  nextId : Nat
  now : Nat
deriving Repr, DecidableEq

/-- `Partial<Encryption>` as passed to `create`: the optional fields.  A JS
field holding `undefined` is `none`; note that the source tests the fields
with falsiness (`!encryption.name`), so the empty string behaves like an
absent field there. -/
structure EncryptionDraft where
  name : Option String
  encryptionKey : Option String
deriving Repr, DecidableEq

/-! ## Base64 (`randomBytes(24).toString(base64)`) -/

/-- The base64 alphabet. -/
def base64Alphabet : List Char :=
  "ABCDEFGHIJKLMNOPQRSTUVWXYZabcdefghijklmnopqrstuvwxyz0123456789+/".toList

/-- The base64 digit for a 6-bit value. -/
def base64Char (n : Nat) : Char := base64Alphabet.getD n 'A'

/-- Standard base64 of a byte list, as characters (3 bytes to 4 digits,
with `=` padding for a 1- or 2-byte tail). -/
def base64Chars : List Nat → List Char
  | [] => []
  | [a] => [base64Char (a / 4), base64Char (a % 4 * 16), '=', '=']
  | [a, b] => [base64Char (a / 4), base64Char (a % 4 * 16 + b / 16),
               base64Char (b % 16 * 4), '=']
  | a :: b :: c :: rest =>
      base64Char (a / 4) :: base64Char (a % 4 * 16 + b / 16) ::
      base64Char (b % 16 * 4 + c / 64) :: base64Char (c % 64) ::
      base64Chars rest

/-- `Buffer.toString(base64)` of a byte list. -/
def base64encode (l : List Nat) : String := String.mk (base64Chars l)

/-! ## Repository operations of external collaborators -/

/-- Modelled from the spec: `credentials.updateIsEncryptionKeyLost(id, b)`
of the credential service (section 6): set the flag on the credential rows
with the given id. -/
def updateIsEncryptionKeyLost (db : DB) (cid : String) (b : Bool) : DB :=
  { db with credentials := db.credentials.map fun c =>
      if c.id = cid then { c with isEncryptionKeyLost := b } else c }

/-- Modelled from the spec: `encryptionCredential.findByCredentialId(id)` of
the association-store service (section 6): all association rows for a
credential id. -/
def findByCredentialId (db : DB) (cid : String) : List AssocRow :=
  db.assocRows.filter fun a => a.credentialId = cid

/-- Modelled from the spec: `encryptionCredential.create(encryptionId,
credentialId)` (section 6): insert a new association row. -/
def createAssoc (db : DB) (eid : Nat) (cid : String) : DB :=
  { db with assocRows := db.assocRows ++ [⟨eid, cid⟩] }

/-- Modelled from the spec: `encryptionCredential.updateEncryptionId(
encryptionId, credentialId)` (section 6): repoint the association rows of
the credential at the given encryption. -/
def updateEncryptionId (db : DB) (eid : Nat) (cid : String) : DB :=
  { db with assocRows := db.assocRows.map fun a =>
      if a.credentialId = cid then { a with encryptionId := eid } else a }

/-- Modelled from the spec: `encryptionCredential.deleteByEncryptionId(
encryptionId, credentialId)` (section 6): delete the association rows
matching both ids. -/
def deleteByEncryptionId (db : DB) (eid : Nat) (cid : String) : DB :=
  { db with assocRows := db.assocRows.filter fun a =>
      ¬(a.encryptionId = eid ∧ a.credentialId = cid) }

/-! ## The encryption service -/

/-- The validation error thrown by `create` when the name is falsy. -/
def nameError : String := "Please provide a name for this encryption."

/-- `create(encryption)`: fill a falsy `encryptionKey` with
`randomBytes(24).toString(base64)` (the random bytes are the explicit
parameter `rnd`), reject a falsy `name`, then persist the row (the store
assigns `id` and `updatedDate`). -/
def create (db : DB) (rnd : List Nat) (p : EncryptionDraft) :
    Except String (DB × Encryption) :=
  let key := match p.encryptionKey with
    | none => base64encode rnd
    | some k => if k = "" then base64encode rnd else k
  match p.name with
  | none => .error nameError
  | some n =>
      if n = "" then .error nameError
      else
        let e : Encryption := ⟨db.nextId, n, key, db.now⟩
        .ok ({ db with
                encryptions := db.encryptions ++ [e]
                nextId := db.nextId + 1
                now := db.now + 1 }, e)

/-- One step of the scan for the latest encryption: keep the row with the
larger `updatedDate`, the earlier row on a tie. -/
def latestStep (acc : Option Encryption) (e : Encryption) : Option Encryption :=
  match acc with
  | none => some e
  | some m => if m.updatedDate < e.updatedDate then some e else acc

/-- `find({ order: { updatedDate: DESC } })` followed by taking the first
row: the first row attaining the maximal `updatedDate` (the head of a
stable descending sort). -/
def selectLatest (l : List Encryption) : Option Encryption :=
  l.foldl latestStep none

/-- The encryptions associated with a credential id: the join of the
`encryption` table with `encryption_credential` on `ec.encryptionId = e.id`
and with the `credential` table on `ec.credentialId = c.id`, filtered by
`c.id = credentialId` (with `getMany` returning each encryption entity
once).  The `WHERE` clause on the joined credential alias means a
credential id with no row in the `credential` table yields zero results,
whatever stale association rows exist. -/
def associatedEncryptions (db : DB) (cid : String) : List Encryption :=
  db.encryptions.filter fun e =>
    db.assocRows.any fun a =>
      a.encryptionId = e.id &&
        db.credentials.any fun c => a.credentialId = c.id && c.id = cid

/-- `get(credential?)`: with no credential, the latest encryption by
`updatedDate` descending (error when the table is empty); with a
credential, the encryption joined through `encryption_credential` (errors
on zero or on more than one result). -/
def get (db : DB) (credential : Option Credential) : Except String Encryption :=
  match credential with
  | none =>
      match selectLatest db.encryptions with
      | some e => .ok e
      | none => .error "No encryption key available"
  | some c =>
      let dbResponse := associatedEncryptions db c.id
      if h : dbResponse.length = 1 then .ok (dbResponse.get ⟨0, by omega⟩)
      else if 1 < dbResponse.length then
        .error ("credentialId: " ++ c.id ++ " have multiple encryptions")
      else
        .error ("credentialId: " ++ c.id ++ "\x27s encryption is lost")

/-- `encrypt(plainDataObj)`: select the latest key with `get()`, encrypt
the serialized plaintext with it, return both the encryption row used and
the ciphertext. -/
def encrypt (db : DB) (plainDataObj : String) :
    Except String (Encryption × CipherText) :=
  match get db none with
  | .error m => .error m
  | .ok e => .ok (e, AESencrypt plainDataObj e.encryptionKey)

/-- `decrypt(credential, encryption?)`: resolve the encryption through
`get(credential)` when not supplied, then decrypt `encryptedData` with its
key; fails when the cipher rejects the ciphertext under that key. -/
def decrypt (db : DB) (credential : Credential) (encryption : Option Encryption) :
    Except String (Encryption × String) :=
  match (match encryption with
         | some e => Except.ok e
         | none => get db (some credential)) with
  | .error m => .error m
  | .ok e =>
      match AESdecrypt credential.encryptedData e.encryptionKey with
      | some plainDataObj => .ok (e, plainDataObj)
      | none => .error "Malformed UTF-8 data"

/-- The body of `insertLegacyEncryption` inside `generate`: admit the
candidate `secretKey` when it is non-empty and not among the
`encryptionKeys` snapshot taken at the start of `generate`, naming it with
the incremented counter.  The state is the database plus `nameCounter`. -/
def insertLegacyEncryption (encryptionKeys : List String) (rnd : List Nat)
    (secretKey : String) (st : DB × Nat) : Except String (DB × Nat) :=
  if secretKey ≠ "" ∧ secretKey ∉ encryptionKeys then
    match create st.1 rnd ⟨some (Nat.repr (st.2 + 1)), some secretKey⟩ with
    | .error m => .error m
    | .ok (db2, _) => .ok (db2, st.2 + 1)
  else .ok st

/-- `generate()`: read the override key (`FLOWISE_SECRETKEY_OVERWRITE`,
empty when unset) and the legacy key file contents (empty when the file is
missing), snapshot the stored key values, run `insertLegacyEncryption` on
the file key then on the override key, then return the latest encryption;
when none exists, create one with only a generated name (so `create` fills
in random key bytes). -/
def generate (overrideKey fileKey : String) (rnd : List Nat) (db : DB) :
    Except String (DB × Encryption) :=
  let encryptionKeys := db.encryptions.map (·.encryptionKey)
  match insertLegacyEncryption encryptionKeys rnd fileKey
      (db, encryptionKeys.length) with
  | .error m => .error m
  | .ok st1 =>
      match insertLegacyEncryption encryptionKeys rnd overrideKey st1 with
      | .error m => .error m
      | .ok st2 =>
          match selectLatest st2.1.encryptions with
          | some e => .ok (st2.1, e)
          | none =>
              match create st2.1 rnd ⟨some (Nat.repr (st2.2 + 1)), none⟩ with
              | .error m => .error m
              | .ok (db3, e) => .ok (db3, e)

/-- The inner loop of `resync` for one credential: try each encryption in
store order; on the first successful trial decryption repair the
association rows (insert when none, repoint when exactly one, leave alone
otherwise), clear the lost flag and stop; on a failed trial set the lost
flag and delete the association between that encryption and the
credential, then continue with the next encryption. -/
def resyncCredential (keys : List Encryption) (c : Credential) (db : DB) : DB :=
  match keys with
  | [] => db
  | e :: rest =>
      match decrypt db c (some e) with
      | .ok _ =>
          let existing := findByCredentialId db c.id
          let db1 :=
            if existing.length = 0 then createAssoc db e.id c.id
            else if existing.length = 1 then updateEncryptionId db e.id c.id
            else db
          updateIsEncryptionKeyLost db1 c.id false
      | .error _ =>
          let db1 := updateIsEncryptionKeyLost db c.id true
          let db2 := deleteByEncryptionId db1 e.id c.id
          resyncCredential rest c db2

/-- `resync()`: snapshot all encryptions and all credentials, then run the
per-credential inner loop for each credential in turn. -/
def resync (db : DB) : DB :=
  db.credentials.foldl (fun acc c => resyncCredential db.encryptions c acc) db

/-! ## Helper views of the state -/

/-- The stored key values. -/
def keysOf (db : DB) : List String := db.encryptions.map (·.encryptionKey)

/-- The association rows of one credential. -/
def rowsFor (db : DB) (cid : String) : List AssocRow :=
  findByCredentialId db cid

/-- The ids of the credential rows. -/
def credIds (db : DB) : List String := db.credentials.map (·.id)

/-- The `isEncryptionKeyLost` flag of the credential row with the given id
(`none` when there is no such row). -/
def flagOf (db : DB) (cid : String) : Option Bool :=
  (db.credentials.find? fun c => c.id = cid).map (·.isEncryptionKeyLost)

/-- The candidate keys a call to `generate` admits, in admission order: of
the legacy-file key then the override key, those that are non-empty and not
among the stored keys snapshot taken at the start of the call.  Both
candidates are tested against the same snapshot. -/
def admittedKeys (keys : List String) (fileKey overrideKey : String) :
    List String :=
  [fileKey, overrideKey].filter fun k => decide (k ≠ "" ∧ k ∉ keys)

/-! ## Lemmas about key selection -/

theorem foldl_fixed {α β : Type} (l : List β) (a : α) :
    l.foldl (fun acc _ => acc) a = a := by
  induction l with
  | nil => rfl
  | cons x xs ih =>
      simp only [List.foldl_cons]
      exact ih

/-- `latestStep` always returns a row: the new one, or the accumulated one
when its `updatedDate` is at least as late. -/
theorem latestStep_bound (acc : Option Encryption) (x : Encryption) :
    ∃ s, latestStep acc x = some s ∧ x.updatedDate ≤ s.updatedDate ∧
      (∀ m, acc = some m → m.updatedDate ≤ s.updatedDate) ∧
      (s = x ∨ acc = some s) := by
  cases acc with
  | none => exact ⟨x, rfl, Nat.le_refl _, by simp, Or.inl rfl⟩
  | some m =>
      by_cases hlt : m.updatedDate < x.updatedDate
      · refine ⟨x, by simp [latestStep, hlt], Nat.le_refl _, ?_, Or.inl rfl⟩
        intro m2 hm2
        cases hm2
        omega
      · refine ⟨m, by simp [latestStep, hlt], by omega, ?_, Or.inr rfl⟩
        intro m2 hm2
        cases hm2
        exact Nat.le_refl _

/-- The fold of `latestStep` yields a member of the list (or the initial
accumulator) attaining the maximal `updatedDate`. -/
theorem selectLatest_go (l : List Encryption) (acc : Option Encryption)
    (r : Encryption) (h : l.foldl latestStep acc = some r) :
    (acc = some r ∨ r ∈ l) ∧ (∀ x ∈ l, x.updatedDate ≤ r.updatedDate) ∧
      (∀ m, acc = some m → m.updatedDate ≤ r.updatedDate) := by
  induction l generalizing acc with
  | nil =>
      simp only [List.foldl_nil] at h
      refine ⟨Or.inl h, by simp, fun m hm => ?_⟩
      rw [hm] at h
      cases h
      exact Nat.le_refl _
  | cons x xs ih =>
      simp only [List.foldl_cons] at h
      obtain ⟨h1, h2, h3⟩ := ih (latestStep acc x) h
      obtain ⟨s, hs, hxs, hms, hcase⟩ := latestStep_bound acc x
      have hsr : s.updatedDate ≤ r.updatedDate := h3 s hs
      refine ⟨?_, fun y hy => ?_, fun m hm => ?_⟩
      · rcases h1 with h1 | h1
        · rw [hs] at h1
          cases h1
          rcases hcase with rfl | hacc
          · exact Or.inr (List.mem_cons_self _ _)
          · exact Or.inl hacc
        · exact Or.inr (List.mem_cons_of_mem x h1)
      · rcases List.mem_cons.mp hy with rfl | hy
        · omega
        · exact h2 y hy
      · have := hms m hm
        omega

/-- `latestStep` folds starting from a row never come back empty. -/
theorem selectLatest_go_isSome (l : List Encryption) (e : Encryption) :
    (l.foldl latestStep (some e)).isSome := by
  induction l generalizing e with
  | nil => rfl
  | cons x xs ih =>
      simp only [List.foldl_cons]
      obtain ⟨s, hs, -⟩ := latestStep_bound (some e) x
      rw [hs]
      exact ih s

theorem selectLatest_of_ne_nil (l : List Encryption) (h : l ≠ []) :
    ∃ e, selectLatest l = some e := by
  cases l with
  | nil => exact absurd rfl h
  | cons x xs =>
      have hsome := selectLatest_go_isSome xs x
      unfold selectLatest
      simp only [List.foldl_cons]
      exact Option.isSome_iff_exists.mp (by simpa [latestStep] using hsome)

theorem selectLatest_spec (l : List Encryption) (e : Encryption)
    (h : selectLatest l = some e) :
    e ∈ l ∧ ∀ x ∈ l, x.updatedDate ≤ e.updatedDate := by
  unfold selectLatest at h
  obtain ⟨h1, h2, -⟩ := selectLatest_go l none e h
  refine ⟨?_, h2⟩
  rcases h1 with hcontra | hmem
  · cases hcontra
  · exact hmem

/-! ## Lemmas about key admission -/

theorem toDigitsCore_ne_nil (b f n : Nat) (ds : List Char) (h : ds ≠ []) :
    Nat.toDigitsCore b f n ds ≠ [] := by
  induction f generalizing n ds with
  | zero => simpa [Nat.toDigitsCore] using h
  | succ f ih =>
      simp only [Nat.toDigitsCore]
      split
      · simp
      · exact ih _ _ (by simp)

/-- The decimal rendering of a natural number is never the empty string. -/
theorem repr_ne_empty (n : Nat) : Nat.repr n ≠ "" := by
  unfold Nat.repr
  intro hcontra
  have hnil : Nat.toDigits 10 n = [] := by
    have := congrArg String.data hcontra
    simpa [List.asString] using this
  revert hnil
  unfold Nat.toDigits
  simp only [Nat.toDigitsCore]
  split
  · simp
  · exact toDigitsCore_ne_nil _ _ _ _ (by simp)

theorem base64Chars_ne_nil (l : List Nat) (h : l ≠ []) :
    base64Chars l ≠ [] := by
  match l with
  | [] => exact absurd rfl h
  | [a] => simp [base64Chars]
  | [a, b] => simp [base64Chars]
  | a :: b :: c :: rest => simp [base64Chars]

theorem base64encode_ne_empty (l : List Nat) (h : l ≠ []) :
    base64encode l ≠ "" := by
  intro hcontra
  apply base64Chars_ne_nil l h
  have hdata := congrArg String.data hcontra
  simpa [base64encode] using hdata

/-- `create` with an explicit non-empty name and non-empty key persists
exactly that row. -/
theorem create_some_key (db : DB) (rnd : List Nat) (nm k : String)
    (hnm : nm ≠ "") (hk : k ≠ "") :
    create db rnd ⟨some nm, some k⟩ =
      .ok ({ db with encryptions := db.encryptions ++ [⟨db.nextId, nm, k, db.now⟩],
                     nextId := db.nextId + 1, now := db.now + 1 },
           ⟨db.nextId, nm, k, db.now⟩) := by
  simp [create, hnm, hk]

/-- `create` with a non-empty name and no key fills in the base64 of the
random bytes. -/
theorem create_none_key (db : DB) (rnd : List Nat) (nm : String)
    (hnm : nm ≠ "") :
    create db rnd ⟨some nm, none⟩ =
      .ok ({ db with
              encryptions := db.encryptions ++
                [⟨db.nextId, nm, base64encode rnd, db.now⟩],
              nextId := db.nextId + 1, now := db.now + 1 },
           ⟨db.nextId, nm, base64encode rnd, db.now⟩) := by
  simp [create, hnm]

/-- `insertLegacyEncryption` on an admissible candidate appends exactly one
row carrying the candidate key and bumps the name counter. -/
theorem insertLegacyEncryption_admit (keys : List String) (rnd : List Nat)
    (k : String) (db : DB) (n : Nat) (h1 : k ≠ "") (h2 : k ∉ keys) :
    insertLegacyEncryption keys rnd k (db, n) =
      .ok ({ db with
              encryptions := db.encryptions ++
                [⟨db.nextId, Nat.repr (n + 1), k, db.now⟩],
              nextId := db.nextId + 1, now := db.now + 1 }, n + 1) := by
  unfold insertLegacyEncryption
  rw [if_pos ⟨h1, h2⟩]
  rw [create_some_key db rnd (Nat.repr (n + 1)) k (repr_ne_empty _) h1]

/-- `insertLegacyEncryption` on an inadmissible candidate changes
nothing. -/
theorem insertLegacyEncryption_skip (keys : List String) (rnd : List Nat)
    (k : String) (db : DB) (n : Nat) (h : ¬(k ≠ "" ∧ k ∉ keys)) :
    insertLegacyEncryption keys rnd k (db, n) = .ok (db, n) := by
  unfold insertLegacyEncryption
  rw [if_neg h]

/-- The admitted candidates, case by case. -/
theorem admittedKeys_eq (keys : List String) (f o : String) :
    admittedKeys keys f o =
      (if f ≠ "" ∧ f ∉ keys then [f] else []) ++
      (if o ≠ "" ∧ o ∉ keys then [o] else []) := by
  by_cases hf : f ≠ "" ∧ f ∉ keys <;> by_cases ho : o ≠ "" ∧ o ∉ keys <;>
    simp [admittedKeys, List.filter, hf, ho]

/-- Full characterisation of a `generate` call: it succeeds, touches no
credential or association row, and the stored keys afterwards are the
previous ones, then the admitted candidates (each non-empty candidate not
in the starting snapshot, the file key before the override key), then — only
when the store would otherwise still be empty — one fresh random key. -/
theorem generate_admission_spec (o f : String) (rnd : List Nat) (db : DB) :
    ∃ db2 e, generate o f rnd db = .ok (db2, e) ∧
      keysOf db2 = keysOf db ++ admittedKeys (keysOf db) f o ++
        (if keysOf db ++ admittedKeys (keysOf db) f o = [] then [base64encode rnd]
         else []) ∧
      db2.credentials = db.credentials ∧ db2.assocRows = db.assocRows := by
  by_cases hf : f ≠ "" ∧ f ∉ keysOf db <;> by_cases ho : o ≠ "" ∧ o ∉ keysOf db
  · simp only [generate,
      show db.encryptions.map (·.encryptionKey) = keysOf db from rfl,
      insertLegacyEncryption_admit _ _ _ _ _ hf.1 hf.2,
      insertLegacyEncryption_admit _ _ _ _ _ ho.1 ho.2]
    obtain ⟨e, he⟩ := selectLatest_of_ne_nil
      ((db.encryptions ++ [⟨db.nextId, Nat.repr ((keysOf db).length + 1), f, db.now⟩]) ++
        [⟨db.nextId + 1, Nat.repr ((keysOf db).length + 1 + 1), o, db.now + 1⟩])
      (by simp)
    rw [he]
    refine ⟨_, e, rfl, ?_, rfl, rfl⟩
    rw [admittedKeys_eq, if_pos hf, if_pos ho]
    simp [keysOf]
  · simp only [generate,
      show db.encryptions.map (·.encryptionKey) = keysOf db from rfl,
      insertLegacyEncryption_admit _ _ _ _ _ hf.1 hf.2,
      insertLegacyEncryption_skip _ _ _ _ _ ho]
    obtain ⟨e, he⟩ := selectLatest_of_ne_nil
      (db.encryptions ++ [⟨db.nextId, Nat.repr ((keysOf db).length + 1), f, db.now⟩])
      (by simp)
    rw [he]
    refine ⟨_, e, rfl, ?_, rfl, rfl⟩
    rw [admittedKeys_eq, if_pos hf, if_neg ho]
    simp [keysOf]
  · simp only [generate,
      show db.encryptions.map (·.encryptionKey) = keysOf db from rfl,
      insertLegacyEncryption_skip _ _ _ _ _ hf,
      insertLegacyEncryption_admit _ _ _ _ _ ho.1 ho.2]
    obtain ⟨e, he⟩ := selectLatest_of_ne_nil
      (db.encryptions ++ [⟨db.nextId, Nat.repr ((keysOf db).length + 1), o, db.now⟩])
      (by simp)
    rw [he]
    refine ⟨_, e, rfl, ?_, rfl, rfl⟩
    rw [admittedKeys_eq, if_neg hf, if_pos ho]
    simp [keysOf]
  · simp only [generate,
      show db.encryptions.map (·.encryptionKey) = keysOf db from rfl,
      insertLegacyEncryption_skip _ _ _ _ _ hf,
      insertLegacyEncryption_skip _ _ _ _ _ ho]
    by_cases hemp : db.encryptions = []
    · rw [hemp]
      rw [show selectLatest [] = none from rfl]
      rw [create_none_key _ rnd _ (repr_ne_empty _)]
      refine ⟨_, _, rfl, ?_, rfl, rfl⟩
      rw [admittedKeys_eq, if_neg hf, if_neg ho]
      simp [keysOf, hemp]
    · obtain ⟨e, he⟩ := selectLatest_of_ne_nil db.encryptions hemp
      rw [he]
      refine ⟨_, e, rfl, ?_, rfl, rfl⟩
      rw [admittedKeys_eq, if_neg hf, if_neg ho]
      simp [keysOf, hemp]

/-! ## Lemmas about resync -/

theorem decrypt_some_pos (db : DB) (c : Credential) (e : Encryption)
    (h : c.encryptedData.key = e.encryptionKey) :
    decrypt db c (some e) = .ok (e, c.encryptedData.payload) := by
  simp [decrypt, AESdecrypt, h]

theorem decrypt_some_neg (db : DB) (c : Credential) (e : Encryption)
    (h : ¬c.encryptedData.key = e.encryptionKey) :
    decrypt db c (some e) = .error "Malformed UTF-8 data" := by
  simp [decrypt, AESdecrypt, h]

theorem mem_rowsFor (db : DB) (cid : String) (a : AssocRow)
    (h : a ∈ rowsFor db cid) : a.credentialId = cid := by
  simp only [rowsFor, findByCredentialId, List.mem_filter,
    decide_eq_true_eq] at h
  exact h.2

theorem rowsFor_updateFlag (db : DB) (cid : String) (b : Bool) (cid2 : String) :
    rowsFor (updateIsEncryptionKeyLost db cid b) cid2 = rowsFor db cid2 := rfl

theorem flagOf_createAssoc (db : DB) (eid : Nat) (cid cid2 : String) :
    flagOf (createAssoc db eid cid) cid2 = flagOf db cid2 := rfl

theorem flagOf_updateEncryptionId (db : DB) (eid : Nat) (cid cid2 : String) :
    flagOf (updateEncryptionId db eid cid) cid2 = flagOf db cid2 := rfl

theorem flagOf_deleteByEncryptionId (db : DB) (eid : Nat) (cid cid2 : String) :
    flagOf (deleteByEncryptionId db eid cid) cid2 = flagOf db cid2 := rfl

theorem credIds_createAssoc (db : DB) (eid : Nat) (cid : String) :
    credIds (createAssoc db eid cid) = credIds db := rfl

theorem credIds_updateEncryptionId (db : DB) (eid : Nat) (cid : String) :
    credIds (updateEncryptionId db eid cid) = credIds db := rfl

theorem credIds_deleteByEncryptionId (db : DB) (eid : Nat) (cid : String) :
    credIds (deleteByEncryptionId db eid cid) = credIds db := rfl

theorem credIds_updateFlag (db : DB) (cid : String) (b : Bool) :
    credIds (updateIsEncryptionKeyLost db cid b) = credIds db := by
  simp only [credIds, updateIsEncryptionKeyLost]
  induction db.credentials with
  | nil => rfl
  | cons c l ih =>
      by_cases hc : c.id = cid <;> simp [hc, ih]

theorem rowsFor_createAssoc_self (db : DB) (eid : Nat) (cid : String) :
    rowsFor (createAssoc db eid cid) cid = rowsFor db cid ++ [⟨eid, cid⟩] := by
  simp [rowsFor, findByCredentialId, createAssoc, List.filter_append]

theorem rowsFor_createAssoc_other (db : DB) (eid : Nat) (cid cid2 : String)
    (h : ¬cid = cid2) :
    rowsFor (createAssoc db eid cid) cid2 = rowsFor db cid2 := by
  simp [rowsFor, findByCredentialId, createAssoc, List.filter_append, h]

theorem rowsFor_updateEncryptionId_self (db : DB) (eid : Nat) (cid : String) :
    rowsFor (updateEncryptionId db eid cid) cid =
      (rowsFor db cid).map fun a => { a with encryptionId := eid } := by
  simp only [rowsFor, findByCredentialId, updateEncryptionId,
    List.filter_map]
  rw [List.filter_congr (q := fun a => decide (a.credentialId = cid)) ?_]
  · apply List.map_congr_left
    intro a ha
    have := (List.mem_filter.mp ha).2
    simp only [decide_eq_true_eq] at this
    simp [this]
  · intro a _
    by_cases ha : a.credentialId = cid <;> simp [Function.comp, ha]

theorem rowsFor_updateEncryptionId_other (db : DB) (eid : Nat) (cid cid2 : String)
    (h : ¬cid = cid2) :
    rowsFor (updateEncryptionId db eid cid) cid2 = rowsFor db cid2 := by
  simp only [rowsFor, findByCredentialId, updateEncryptionId,
    List.filter_map]
  rw [List.filter_congr (q := fun a => decide (a.credentialId = cid2)) ?_]
  · apply (List.map_congr_left ?_).trans (List.map_id _)
    intro a ha
    have := (List.mem_filter.mp ha).2
    simp only [decide_eq_true_eq] at this
    have hne : ¬a.credentialId = cid := by rw [this]; exact fun hcon => h hcon.symm
    simp [hne]
  · intro a _
    by_cases ha : a.credentialId = cid
    · have hne : ¬a.credentialId = cid2 := by rw [ha]; exact h
      simp [Function.comp, ha, hne, h]
    · simp [Function.comp, ha]

theorem rowsFor_deleteByEncryptionId_self (db : DB) (eid : Nat) (cid : String) :
    rowsFor (deleteByEncryptionId db eid cid) cid =
      (rowsFor db cid).filter fun a => ¬a.encryptionId = eid := by
  simp only [rowsFor, findByCredentialId, deleteByEncryptionId,
    List.filter_filter]
  apply List.filter_congr
  intro a _
  by_cases ha : a.credentialId = cid <;> by_cases he : a.encryptionId = eid <;>
    simp [ha, he]

theorem rowsFor_deleteByEncryptionId_other (db : DB) (eid : Nat) (cid cid2 : String)
    (h : ¬cid = cid2) :
    rowsFor (deleteByEncryptionId db eid cid) cid2 = rowsFor db cid2 := by
  simp only [rowsFor, findByCredentialId, deleteByEncryptionId,
    List.filter_filter]
  apply List.filter_congr
  intro a _
  by_cases ha : a.credentialId = cid2
  · have ha2 : ¬a.credentialId = cid := by rw [ha]; exact fun hcon => h hcon.symm
    have hcc : ¬cid2 = cid := fun hcon => h hcon.symm
    simp [ha, ha2, hcc]
  · simp [ha]

theorem find_map_update_self (l : List Credential) (cid : String) (b : Bool)
    (h : cid ∈ l.map (·.id)) :
    ((l.map fun c =>
        if c.id = cid then { c with isEncryptionKeyLost := b } else c).find?
      fun c => decide (c.id = cid)).map (·.isEncryptionKeyLost) = some b := by
  induction l with
  | nil => simp at h
  | cons c l ih =>
      by_cases hc : c.id = cid
      · simp [List.find?, hc]
      · have h2 : cid ∈ l.map (·.id) := by
          simp only [List.map_cons, List.mem_cons] at h
          rcases h with h | h
          · exact absurd h.symm hc
          · exact h
        simp only [List.map_cons, List.find?, if_neg hc,
          show (decide (c.id = cid)) = false by simp [hc]]
        exact ih h2

theorem flagOf_updateFlag_self (db : DB) (cid : String) (b : Bool)
    (h : cid ∈ credIds db) :
    flagOf (updateIsEncryptionKeyLost db cid b) cid = some b := by
  simp only [flagOf, updateIsEncryptionKeyLost]
  exact find_map_update_self db.credentials cid b h

theorem find_map_update_other (l : List Credential) (cid cid2 : String)
    (b : Bool) (h : ¬cid = cid2) :
    (l.map fun c =>
        if c.id = cid then { c with isEncryptionKeyLost := b } else c).find?
      (fun c => decide (c.id = cid2)) = l.find? fun c => decide (c.id = cid2) := by
  induction l with
  | nil => rfl
  | cons c l ih =>
      by_cases hc : c.id = cid
      · have hc2 : ¬c.id = cid2 := by rw [hc]; exact h
        simp only [List.map_cons, List.find?, if_pos hc,
          show decide
              (({ c with isEncryptionKeyLost := b } : Credential).id = cid2) = false
            by simp [hc2],
          show decide (c.id = cid2) = false by simp [hc2]]
        exact ih
      · simp only [List.map_cons, List.find?, if_neg hc]
        by_cases hc2 : c.id = cid2
        · simp [hc2]
        · simp only [show decide (c.id = cid2) = false by simp [hc2]]
          exact ih

theorem flagOf_updateFlag_other (db : DB) (cid : String) (b : Bool)
    (cid2 : String) (h : ¬cid = cid2) :
    flagOf (updateIsEncryptionKeyLost db cid b) cid2 = flagOf db cid2 := by
  simp only [flagOf, updateIsEncryptionKeyLost]
  rw [find_map_update_other db.credentials cid cid2 b h]


theorem resyncCredential_credIds (keys : List Encryption) (c : Credential) :
    ∀ db : DB, credIds (resyncCredential keys c db) = credIds db := by
  induction keys with
  | nil => intro db; rfl
  | cons e rest ih =>
      intro db
      by_cases hd : c.encryptedData.key = e.encryptionKey
      · simp only [resyncCredential, decrypt_some_pos db c e hd]
        rw [credIds_updateFlag]
        split
        · rfl
        · split <;> rfl
      · simp only [resyncCredential, decrypt_some_neg db c e hd]
        rw [ih, credIds_deleteByEncryptionId, credIds_updateFlag]

theorem resyncCredential_frame (keys : List Encryption) (c : Credential)
    (cid2 : String) (h : ¬c.id = cid2) :
    ∀ db : DB, rowsFor (resyncCredential keys c db) cid2 = rowsFor db cid2 ∧
      flagOf (resyncCredential keys c db) cid2 = flagOf db cid2 := by
  induction keys with
  | nil => intro db; exact ⟨rfl, rfl⟩
  | cons e rest ih =>
      intro db
      by_cases hd : c.encryptedData.key = e.encryptionKey
      · simp only [resyncCredential, decrypt_some_pos db c e hd]
        constructor
        · rw [rowsFor_updateFlag]
          split
          · exact rowsFor_createAssoc_other db e.id c.id cid2 h
          · split
            · exact rowsFor_updateEncryptionId_other db e.id c.id cid2 h
            · rfl
        · rw [flagOf_updateFlag_other _ _ _ _ h]
          split
          · rfl
          · split <;> rfl
      · simp only [resyncCredential, decrypt_some_neg db c e hd]
        obtain ⟨h1, h2⟩ :=
          ih (deleteByEncryptionId (updateIsEncryptionKeyLost db c.id true) e.id c.id)
        constructor
        · rw [h1, rowsFor_deleteByEncryptionId_other _ _ _ _ h, rowsFor_updateFlag]
        · rw [h2, flagOf_deleteByEncryptionId, flagOf_updateFlag_other _ _ _ _ h]

theorem resyncCredential_success (keys : List Encryption) (c : Credential) :
    ∀ db : DB, (∃ e ∈ keys, c.encryptedData.key = e.encryptionKey) →
      (rowsFor db c.id).length ≤ 1 → c.id ∈ credIds db →
      ∃ e ∈ keys, c.encryptedData.key = e.encryptionKey ∧
        rowsFor (resyncCredential keys c db) c.id = [⟨e.id, c.id⟩] ∧
        flagOf (resyncCredential keys c db) c.id = some false := by
  induction keys with
  | nil =>
      intro db hmatch
      simp at hmatch
  | cons e rest ih =>
      intro db hmatch hrows hmem
      by_cases hd : c.encryptedData.key = e.encryptionKey
      · refine ⟨e, List.mem_cons_self _ _, hd, ?_, ?_⟩
        · simp only [resyncCredential, decrypt_some_pos db c e hd]
          rw [rowsFor_updateFlag]
          rcases hlen : rowsFor db c.id with _ | ⟨a, rest2⟩
          · have hlen0 : (findByCredentialId db c.id).length = 0 := by
              rw [show findByCredentialId db c.id = rowsFor db c.id from rfl, hlen]
              rfl
            rw [if_pos hlen0, rowsFor_createAssoc_self, hlen]
            rfl
          · have hr2 : rest2 = [] := by
              rw [hlen] at hrows
              cases rest2 with
              | nil => rfl
              | cons b l2 => simp at hrows
            subst hr2
            have hlen1 : (findByCredentialId db c.id).length = 1 := by
              rw [show findByCredentialId db c.id = rowsFor db c.id from rfl, hlen]
              rfl
            rw [if_neg (by omega), if_pos hlen1, rowsFor_updateEncryptionId_self,
              hlen]
            have hacid : a.credentialId = c.id :=
              mem_rowsFor db c.id a (by rw [hlen]; exact List.mem_cons_self _ _)
            simp [hacid]
        · simp only [resyncCredential, decrypt_some_pos db c e hd]
          apply flagOf_updateFlag_self
          split
          · exact hmem
          · split <;> exact hmem
      · simp only [resyncCredential, decrypt_some_neg db c e hd]
        have hmatch2 : ∃ e2 ∈ rest, c.encryptedData.key = e2.encryptionKey := by
          rcases hmatch with ⟨e2, he2, hk⟩
          rcases List.mem_cons.mp he2 with rfl | he2
          · exact absurd hk hd
          · exact ⟨e2, he2, hk⟩
        obtain ⟨e2, he2, hk2, h1, h2⟩ :=
          ih (deleteByEncryptionId (updateIsEncryptionKeyLost db c.id true) e.id c.id)
            hmatch2
            (by
              rw [rowsFor_deleteByEncryptionId_self, rowsFor_updateFlag]
              exact le_trans (List.length_filter_le _ _) hrows)
            (by
              rw [credIds_deleteByEncryptionId, credIds_updateFlag]
              exact hmem)
        exact ⟨e2, List.mem_cons_of_mem _ he2, hk2, h1, h2⟩

theorem resyncCredential_lost (keys : List Encryption) (c : Credential) :
    ∀ db : DB, keys ≠ [] →
      (∀ e ∈ keys, ¬c.encryptedData.key = e.encryptionKey) →
      (∀ a ∈ rowsFor db c.id, a.encryptionId ∈ keys.map (·.id)) →
      c.id ∈ credIds db →
      rowsFor (resyncCredential keys c db) c.id = [] ∧
      flagOf (resyncCredential keys c db) c.id = some true := by
  induction keys with
  | nil =>
      intro db hne
      exact absurd rfl hne
  | cons e rest ih =>
      intro db _ hfail href hmem
      have hd := hfail e (List.mem_cons_self _ _)
      simp only [resyncCredential, decrypt_some_neg db c e hd]
      have hrows2 : rowsFor
          (deleteByEncryptionId (updateIsEncryptionKeyLost db c.id true) e.id c.id)
          c.id = (rowsFor db c.id).filter fun a => ¬a.encryptionId = e.id := by
        rw [rowsFor_deleteByEncryptionId_self, rowsFor_updateFlag]
      have hmem2 : c.id ∈ credIds
          (deleteByEncryptionId (updateIsEncryptionKeyLost db c.id true) e.id c.id) := by
        rw [credIds_deleteByEncryptionId, credIds_updateFlag]
        exact hmem
      cases rest with
      | nil =>
          constructor
          · rw [show resyncCredential [] c
                (deleteByEncryptionId (updateIsEncryptionKeyLost db c.id true)
                  e.id c.id) =
                deleteByEncryptionId (updateIsEncryptionKeyLost db c.id true)
                  e.id c.id from rfl, hrows2]
            rw [List.filter_eq_nil_iff]
            intro a ha
            have hin := href a ha
            simp only [List.map_cons, List.map_nil, List.mem_singleton] at hin
            simp [hin]
          · rw [show resyncCredential [] c
                (deleteByEncryptionId (updateIsEncryptionKeyLost db c.id true)
                  e.id c.id) =
                deleteByEncryptionId (updateIsEncryptionKeyLost db c.id true)
                  e.id c.id from rfl, flagOf_deleteByEncryptionId]
            exact flagOf_updateFlag_self _ _ _ hmem
      | cons e2 rest2 =>
          apply ih _ (by simp)
            (fun e3 he3 => hfail e3 (List.mem_cons_of_mem _ he3)) ?_ hmem2
          intro a ha
          rw [hrows2] at ha
          obtain ⟨ha1, ha2⟩ := List.mem_filter.mp ha
          have hin := href a ha1
          simp only [List.map_cons, List.mem_cons] at hin ⊢
          rcases hin with h0 | hin
          · exact absurd h0 (by simpa using ha2)
          · exact hin

theorem resync_fold_frame (keys : List Encryption) (cid2 : String) :
    ∀ (cs : List Credential) (acc : DB), (∀ x ∈ cs, ¬x.id = cid2) →
      rowsFor (cs.foldl (fun a x => resyncCredential keys x a) acc) cid2 =
        rowsFor acc cid2 ∧
      flagOf (cs.foldl (fun a x => resyncCredential keys x a) acc) cid2 =
        flagOf acc cid2 := by
  intro cs
  induction cs with
  | nil => intro acc _; exact ⟨rfl, rfl⟩
  | cons x rest ih =>
      intro acc hids
      simp only [List.foldl_cons]
      obtain ⟨hf1, hf2⟩ :=
        resyncCredential_frame keys x cid2 (hids x (List.mem_cons_self _ _)) acc
      obtain ⟨hr1, hr2⟩ := ih (resyncCredential keys x acc)
        (fun y hy => hids y (List.mem_cons_of_mem _ hy))
      exact ⟨hr1.trans hf1, hr2.trans hf2⟩

theorem resync_fold_reaches (keys : List Encryption) :
    ∀ (cs : List Credential) (acc : DB) (c : Credential),
      c ∈ cs → (cs.map (·.id)).Nodup → c.id ∈ credIds acc →
      (rowsFor acc c.id).length ≤ 1 →
      (∃ e ∈ keys, c.encryptedData.key = e.encryptionKey) →
      ∃ e ∈ keys, c.encryptedData.key = e.encryptionKey ∧
        rowsFor (cs.foldl (fun a x => resyncCredential keys x a) acc) c.id =
          [⟨e.id, c.id⟩] ∧
        flagOf (cs.foldl (fun a x => resyncCredential keys x a) acc) c.id =
          some false := by
  intro cs
  induction cs with
  | nil =>
      intro acc c hc
      simp at hc
  | cons x rest ih =>
      intro acc c hc hnodup hmem hrows hmatch
      simp only [List.foldl_cons]
      by_cases hx : x = c
      · subst hx
        obtain ⟨e, he, hk, h1, h2⟩ :=
          resyncCredential_success keys x acc hmatch hrows hmem
        have hrest : ∀ y ∈ rest, ¬y.id = x.id := by
          simp only [List.map_cons, List.nodup_cons] at hnodup
          intro y hy hcon
          exact hnodup.1 (by rw [← hcon]; exact List.mem_map_of_mem _ hy)
        obtain ⟨hr1, hr2⟩ :=
          resync_fold_frame keys x.id rest (resyncCredential keys x acc) hrest
        exact ⟨e, he, hk, hr1.trans h1, hr2.trans h2⟩
      · have hcrest : c ∈ rest := by
          rcases List.mem_cons.mp hc with rfl | hr
          · exact absurd rfl hx
          · exact hr
        have hxid : ¬x.id = c.id := by
          simp only [List.map_cons, List.nodup_cons] at hnodup
          intro hcon
          exact hnodup.1 (by rw [hcon]; exact List.mem_map_of_mem _ hcrest)
        obtain ⟨hf1, hf2⟩ := resyncCredential_frame keys x c.id hxid acc
        have hnodup2 : (rest.map (·.id)).Nodup := by
          simp only [List.map_cons, List.nodup_cons] at hnodup
          exact hnodup.2
        refine ih (resyncCredential keys x acc) c hcrest hnodup2 ?_ ?_ hmatch
        · rw [resyncCredential_credIds]
          exact hmem
        · rw [hf1]
          exact hrows

theorem resync_fold_lost (keys : List Encryption) :
    ∀ (cs : List Credential) (acc : DB) (c : Credential),
      c ∈ cs → (cs.map (·.id)).Nodup → c.id ∈ credIds acc →
      keys ≠ [] →
      (∀ e ∈ keys, ¬c.encryptedData.key = e.encryptionKey) →
      (∀ a ∈ rowsFor acc c.id, a.encryptionId ∈ keys.map (·.id)) →
      rowsFor (cs.foldl (fun a x => resyncCredential keys x a) acc) c.id = [] ∧
      flagOf (cs.foldl (fun a x => resyncCredential keys x a) acc) c.id =
        some true := by
  intro cs
  induction cs with
  | nil =>
      intro acc c hc
      simp at hc
  | cons x rest ih =>
      intro acc c hc hnodup hmem hkeys hfail href
      simp only [List.foldl_cons]
      by_cases hx : x = c
      · subst hx
        obtain ⟨h1, h2⟩ := resyncCredential_lost keys x acc hkeys hfail href hmem
        have hrest : ∀ y ∈ rest, ¬y.id = x.id := by
          simp only [List.map_cons, List.nodup_cons] at hnodup
          intro y hy hcon
          exact hnodup.1 (by rw [← hcon]; exact List.mem_map_of_mem _ hy)
        obtain ⟨hr1, hr2⟩ :=
          resync_fold_frame keys x.id rest (resyncCredential keys x acc) hrest
        exact ⟨hr1.trans h1, hr2.trans h2⟩
      · have hcrest : c ∈ rest := by
          rcases List.mem_cons.mp hc with rfl | hr
          · exact absurd rfl hx
          · exact hr
        have hxid : ¬x.id = c.id := by
          simp only [List.map_cons, List.nodup_cons] at hnodup
          intro hcon
          exact hnodup.1 (by rw [hcon]; exact List.mem_map_of_mem _ hcrest)
        obtain ⟨hf1, hf2⟩ := resyncCredential_frame keys x c.id hxid acc
        have hnodup2 : (rest.map (·.id)).Nodup := by
          simp only [List.map_cons, List.nodup_cons] at hnodup
          exact hnodup.2
        refine ih (resyncCredential keys x acc) c hcrest hnodup2 ?_ hkeys hfail ?_
        · rw [resyncCredential_credIds]
          exact hmem
        · rw [hf1]
          exact href

/-! ## Claim theorems -/

/-- Claim C1 (amended): for a credential whose ciphertext was produced with
a key present in the store and which has at most one association row before
the call (credential ids being distinct), `resync` leaves it with exactly
one association row pointing at a store key that decrypts it, and the lost
flag false. -/
theorem resync_convergence (db : DB) (c : Credential)
    (hc : c ∈ db.credentials)
    (hnodup : (db.credentials.map (·.id)).Nodup)
    (hrows : (rowsFor db c.id).length ≤ 1)
    (hmatch : ∃ e ∈ db.encryptions, c.encryptedData.key = e.encryptionKey) :
    ∃ e ∈ db.encryptions, c.encryptedData.key = e.encryptionKey ∧
      rowsFor (resync db) c.id = [⟨e.id, c.id⟩] ∧
      flagOf (resync db) c.id = some false :=
  resync_fold_reaches db.encryptions db.credentials db c hc hnodup
    (List.mem_map_of_mem _ hc) hrows hmatch

theorem resync_convergence_witness :
    ((⟨"c1", ⟨"d", "k2"⟩, true⟩ : Credential) ∈
      (⟨[⟨1, "1", "k1", 0⟩, ⟨2, "2", "k2", 1⟩], [⟨"c1", ⟨"d", "k2"⟩, true⟩],
        [⟨1, "c1"⟩], 3, 2⟩ : DB).credentials) ∧
    ∃ e ∈ (⟨[⟨1, "1", "k1", 0⟩, ⟨2, "2", "k2", 1⟩], [⟨"c1", ⟨"d", "k2"⟩, true⟩],
        [⟨1, "c1"⟩], 3, 2⟩ : DB).encryptions,
      (⟨"c1", ⟨"d", "k2"⟩, true⟩ : Credential).encryptedData.key = e.encryptionKey ∧
      rowsFor (resync ⟨[⟨1, "1", "k1", 0⟩, ⟨2, "2", "k2", 1⟩],
          [⟨"c1", ⟨"d", "k2"⟩, true⟩], [⟨1, "c1"⟩], 3, 2⟩)
          (⟨"c1", ⟨"d", "k2"⟩, true⟩ : Credential).id =
        [⟨e.id, (⟨"c1", ⟨"d", "k2"⟩, true⟩ : Credential).id⟩] ∧
      flagOf (resync ⟨[⟨1, "1", "k1", 0⟩, ⟨2, "2", "k2", 1⟩],
          [⟨"c1", ⟨"d", "k2"⟩, true⟩], [⟨1, "c1"⟩], 3, 2⟩)
          (⟨"c1", ⟨"d", "k2"⟩, true⟩ : Credential).id = some false :=
  ⟨by decide,
   resync_convergence
     ⟨[⟨1, "1", "k1", 0⟩, ⟨2, "2", "k2", 1⟩], [⟨"c1", ⟨"d", "k2"⟩, true⟩],
       [⟨1, "c1"⟩], 3, 2⟩
     ⟨"c1", ⟨"d", "k2"⟩, true⟩ (by decide) (by decide) (by decide) (by decide)⟩

/-- Claim C1 counterexample: a credential with two stale association rows
whose ciphertext decrypts under the first store key keeps both rows after
`resync` — the success branch repairs nothing when more than one row
exists — so it does not end with exactly one association row. -/
theorem resync_multi_assoc_counterexample :
    resync ⟨[⟨1, "1", "k1", 0⟩, ⟨2, "2", "k2", 1⟩, ⟨3, "3", "k3", 2⟩],
        [⟨"c1", ⟨"d", "k1"⟩, true⟩], [⟨2, "c1"⟩, ⟨3, "c1"⟩], 4, 3⟩ =
      ⟨[⟨1, "1", "k1", 0⟩, ⟨2, "2", "k2", 1⟩, ⟨3, "3", "k3", 2⟩],
        [⟨"c1", ⟨"d", "k1"⟩, false⟩], [⟨2, "c1"⟩, ⟨3, "c1"⟩], 4, 3⟩ ∧
    (rowsFor ⟨[⟨1, "1", "k1", 0⟩, ⟨2, "2", "k2", 1⟩, ⟨3, "3", "k3", 2⟩],
        [⟨"c1", ⟨"d", "k1"⟩, false⟩], [⟨2, "c1"⟩, ⟨3, "c1"⟩], 4, 3⟩ "c1").length = 2 ∧
    (⟨"c1", ⟨"d", "k1"⟩, true⟩ : Credential).encryptedData.key =
      (⟨1, "1", "k1", 0⟩ : Encryption).encryptionKey :=
  ⟨rfl, rfl, rfl⟩

/-- Claim C2 (amended): for a credential whose ciphertext decrypts under no
key of a non-empty store and whose association rows all reference stored
keys (credential ids being distinct), `resync` leaves it with zero
association rows and the lost flag true. -/
theorem resync_lost_detection (db : DB) (c : Credential)
    (hc : c ∈ db.credentials)
    (hnodup : (db.credentials.map (·.id)).Nodup)
    (hkeys : db.encryptions ≠ [])
    (hfail : ∀ e ∈ db.encryptions, ¬c.encryptedData.key = e.encryptionKey)
    (href : ∀ a ∈ rowsFor db c.id, a.encryptionId ∈ db.encryptions.map (·.id)) :
    rowsFor (resync db) c.id = [] ∧ flagOf (resync db) c.id = some true :=
  resync_fold_lost db.encryptions db.credentials db c hc hnodup
    (List.mem_map_of_mem _ hc) hkeys hfail href

theorem resync_lost_detection_witness :
    ((⟨"c3", ⟨"d", "kX"⟩, false⟩ : Credential) ∈
      (⟨[⟨1, "1", "k1", 0⟩], [⟨"c3", ⟨"d", "kX"⟩, false⟩], [⟨1, "c3"⟩], 5, 2⟩ :
        DB).credentials) ∧
    rowsFor (resync ⟨[⟨1, "1", "k1", 0⟩], [⟨"c3", ⟨"d", "kX"⟩, false⟩],
        [⟨1, "c3"⟩], 5, 2⟩) (⟨"c3", ⟨"d", "kX"⟩, false⟩ : Credential).id = [] ∧
    flagOf (resync ⟨[⟨1, "1", "k1", 0⟩], [⟨"c3", ⟨"d", "kX"⟩, false⟩],
        [⟨1, "c3"⟩], 5, 2⟩) (⟨"c3", ⟨"d", "kX"⟩, false⟩ : Credential).id =
      some true :=
  ⟨by decide,
   resync_lost_detection
     ⟨[⟨1, "1", "k1", 0⟩], [⟨"c3", ⟨"d", "kX"⟩, false⟩], [⟨1, "c3"⟩], 5, 2⟩
     ⟨"c3", ⟨"d", "kX"⟩, false⟩ (by decide) (by decide) (by decide) (by decide)
     (by decide)⟩

/-- Claim C2 counterexample: with an empty key store the inner loop never
runs, so a credential matching no key keeps `isEncryptionKeyLost = false`;
and an association row referencing an id absent from the key store is never
deleted, so such a credential can also end with a non-zero number of
association rows. -/
theorem resync_lost_counterexample :
    resync ⟨[], [⟨"c2", ⟨"d", "kX"⟩, false⟩], [], 0, 0⟩ =
      ⟨[], [⟨"c2", ⟨"d", "kX"⟩, false⟩], [], 0, 0⟩ ∧
    resync ⟨[⟨1, "1", "k1", 0⟩], [⟨"c3", ⟨"d", "kX"⟩, false⟩], [⟨99, "c3"⟩], 5, 2⟩ =
      ⟨[⟨1, "1", "k1", 0⟩], [⟨"c3", ⟨"d", "kX"⟩, true⟩], [⟨99, "c3"⟩], 5, 2⟩ :=
  ⟨rfl, rfl⟩

/-- Claim C10: when the `encryption` table is empty, `resync` leaves every
credential flag and every association row unchanged — the inner loop body
never executes, so the whole database state is untouched. -/
theorem resync_empty_store_identity (db : DB) (h : db.encryptions = []) :
    resync db = db := by
  unfold resync
  rw [h]
  exact foldl_fixed db.credentials db

theorem resync_empty_store_identity_witness :
    resync ⟨[], [⟨"c1", ⟨"d", "k"⟩, false⟩], [⟨5, "c1"⟩], 7, 9⟩ =
      ⟨[], [⟨"c1", ⟨"d", "k"⟩, false⟩], [⟨5, "c1"⟩], 7, 9⟩ :=
  resync_empty_store_identity _ rfl

/-- Claim C4: `get(credential)` is a trichotomy on the number of
encryptions associated with the credential: zero gives the lost error,
exactly one returns that encryption, more than one gives the multiple
encryptions error. -/
theorem get_credential_trichotomy (db : DB) (c : Credential) :
    (associatedEncryptions db c.id = [] →
      get db (some c) =
        .error ("credentialId: " ++ c.id ++ "\x27s encryption is lost")) ∧
    (∀ e, associatedEncryptions db c.id = [e] → get db (some c) = .ok e) ∧
    (1 < (associatedEncryptions db c.id).length →
      get db (some c) =
        .error ("credentialId: " ++ c.id ++ " have multiple encryptions")) := by
  refine ⟨fun h => ?_, fun e h => ?_, fun h => ?_⟩
  · simp [get, h]
  · simp [get, h]
  · simp only [get]
    rw [dif_neg (by omega), if_pos h]

theorem get_credential_trichotomy_witness :
    (1 < (associatedEncryptions
        ⟨[⟨1, "1", "k1", 0⟩, ⟨2, "2", "k2", 1⟩], [⟨"cW", ⟨"d", "k1"⟩, false⟩],
          [⟨1, "cW"⟩, ⟨2, "cW"⟩], 3, 2⟩ "cW").length ∧
      get ⟨[⟨1, "1", "k1", 0⟩, ⟨2, "2", "k2", 1⟩], [⟨"cW", ⟨"d", "k1"⟩, false⟩],
          [⟨1, "cW"⟩, ⟨2, "cW"⟩], 3, 2⟩ (some ⟨"cW", ⟨"d", "k1"⟩, false⟩) =
        .error ("credentialId: " ++ "cW" ++ " have multiple encryptions")) ∧
    associatedEncryptions
        ⟨[⟨1, "1", "k1", 0⟩, ⟨2, "2", "k2", 1⟩], [], [⟨1, "cG"⟩, ⟨2, "cG"⟩], 3, 2⟩
        "cG" = [] ∧
    get ⟨[⟨1, "1", "k1", 0⟩, ⟨2, "2", "k2", 1⟩], [], [⟨1, "cG"⟩, ⟨2, "cG"⟩], 3, 2⟩
        (some ⟨"cG", ⟨"d", "k1"⟩, false⟩) =
      .error ("credentialId: " ++ "cG" ++ "\x27s encryption is lost") :=
  ⟨⟨by decide,
    (get_credential_trichotomy _ ⟨"cW", ⟨"d", "k1"⟩, false⟩).2.2 (by decide)⟩,
   by decide,
   (get_credential_trichotomy _ ⟨"cG", ⟨"d", "k1"⟩, false⟩).1 (by decide)⟩

/-- Claim C8: `encrypt` selects the key returned by the no-argument `get`,
a stored key of maximal `updatedDate`, returns it together with the
ciphertext produced under it, and fails when the key table is empty. -/
theorem encrypt_latest_key (db : DB) (p : String) :
    (db.encryptions = [] →
      encrypt db p = .error "No encryption key available") ∧
    (db.encryptions ≠ [] → ∃ e, get db none = .ok e ∧
      encrypt db p = .ok (e, AESencrypt p e.encryptionKey) ∧
      e ∈ db.encryptions ∧
      ∀ e2 ∈ db.encryptions, e2.updatedDate ≤ e.updatedDate) := by
  constructor
  · intro h
    simp [encrypt, get, selectLatest, h]
  · intro h
    obtain ⟨e, he⟩ := selectLatest_of_ne_nil _ h
    obtain ⟨hmem, hmax⟩ := selectLatest_spec _ _ he
    refine ⟨e, ?_, ?_, hmem, hmax⟩
    · simp [get, he]
    · simp [encrypt, get, he]

theorem encrypt_latest_key_witness :
    ((⟨[⟨1, "1", "k1", 0⟩, ⟨2, "2", "k2", 5⟩], [], [], 3, 6⟩ : DB).encryptions ≠ [] ∧
      ∃ e, get ⟨[⟨1, "1", "k1", 0⟩, ⟨2, "2", "k2", 5⟩], [], [], 3, 6⟩ none = .ok e ∧
        encrypt ⟨[⟨1, "1", "k1", 0⟩, ⟨2, "2", "k2", 5⟩], [], [], 3, 6⟩ "pt" =
          .ok (e, AESencrypt "pt" e.encryptionKey) ∧
        e ∈ (⟨[⟨1, "1", "k1", 0⟩, ⟨2, "2", "k2", 5⟩], [], [], 3, 6⟩ : DB).encryptions ∧
        ∀ e2 ∈ (⟨[⟨1, "1", "k1", 0⟩, ⟨2, "2", "k2", 5⟩], [], [], 3, 6⟩ : DB).encryptions,
          e2.updatedDate ≤ e.updatedDate) :=
  ⟨by decide,
   (encrypt_latest_key ⟨[⟨1, "1", "k1", 0⟩, ⟨2, "2", "k2", 5⟩], [], [], 3, 6⟩ "pt").2
     (by decide)⟩

/-- Claim C5: round-trip — decrypting, under the key that `encrypt` used,
a credential formed from the ciphertext `encrypt` produced returns the
original plaintext object. -/
theorem encrypt_decrypt_roundtrip (db : DB) (p cid : String) (b : Bool)
    (h : db.encryptions ≠ []) :
    ∃ e ct, encrypt db p = .ok (e, ct) ∧
      decrypt db ⟨cid, ct, b⟩ (some e) = .ok (e, p) := by
  obtain ⟨e, he⟩ := selectLatest_of_ne_nil _ h
  refine ⟨e, AESencrypt p e.encryptionKey, ?_, ?_⟩
  · simp [encrypt, get, he]
  · simp [decrypt, AESdecrypt, AESencrypt]

/-- Claim C3 (amended): a candidate key is admitted only if it is non-empty
and not among the keys stored at the start of the call; the two candidates
are not checked against each other, so equal legacy-file and override keys
are both admitted and `generate` can persist two rows with equal key
bytes. -/
theorem generate_admits_snapshot_dedup (o f : String) (rnd : List Nat) (db : DB) :
    ∃ db2 e, generate o f rnd db = .ok (db2, e) ∧
      keysOf db2 = keysOf db ++ admittedKeys (keysOf db) f o ++
        (if keysOf db ++ admittedKeys (keysOf db) f o = [] then [base64encode rnd]
         else []) ∧
      db2.credentials = db.credentials ∧ db2.assocRows = db.assocRows :=
  generate_admission_spec o f rnd db

/-- Claim C3 counterexample: with an empty store and the same non-empty
string as legacy-file key and override key, one `generate` call persists
two KeyMaterial rows with equal key bytes. -/
theorem generate_duplicate_counterexample :
    generate "k" "k" [1, 2, 3] ⟨[], [], [], 0, 0⟩ =
      .ok (⟨[⟨0, "1", "k", 0⟩, ⟨1, "2", "k", 1⟩], [], [], 2, 2⟩, ⟨1, "2", "k", 1⟩) ∧
    keysOf ⟨[⟨0, "1", "k", 0⟩, ⟨1, "2", "k", 1⟩], [], [], 2, 2⟩ = ["k", "k"] :=
  ⟨rfl, rfl⟩

/-- Claim C6: `generate` always succeeds and leaves at least one row in the
KeyMaterial store, whatever the starting configuration — with no candidates
and an empty store it creates a row with random key bytes. -/
theorem generate_at_least_one_key (o f : String) (rnd : List Nat) (db : DB) :
    ∃ db2 e, generate o f rnd db = .ok (db2, e) ∧ db2.encryptions ≠ [] := by
  obtain ⟨db2, e, hgen, hkeys, -, -⟩ := generate_admission_spec o f rnd db
  refine ⟨db2, e, hgen, fun hnil => ?_⟩
  rw [show keysOf db2 = [] by simp [keysOf, hnil]] at hkeys
  by_cases hc : keysOf db ++ admittedKeys (keysOf db) f o = []
  · rw [if_pos hc, hc] at hkeys
    simp at hkeys
  · rw [if_neg hc, List.append_nil] at hkeys
    exact hc hkeys.symm

/-- Claim C7: a second `generate` call with the same override key and the
same legacy-file key, run on the store left by the first call, admits zero
additional KeyMaterial rows — it returns the database unchanged. -/
theorem generate_idempotent (o f : String) (rnd1 rnd2 : List Nat) (db db1 : DB)
    (e1 : Encryption) (h : generate o f rnd1 db = .ok (db1, e1)) :
    ∃ e2, generate o f rnd2 db1 = .ok (db1, e2) := by
  obtain ⟨db2, e, hgen, hkeys, -, -⟩ := generate_admission_spec o f rnd1 db
  rw [hgen] at h
  injection h with hp
  cases hp
  have hne : db1.encryptions ≠ [] := by
    intro hnil
    rw [show keysOf db1 = [] by simp [keysOf, hnil]] at hkeys
    by_cases hc : keysOf db ++ admittedKeys (keysOf db) f o = []
    · rw [if_pos hc, hc] at hkeys
      simp at hkeys
    · rw [if_neg hc, List.append_nil] at hkeys
      exact hc hkeys.symm
  have hmemf : f ≠ "" → f ∈ keysOf db1 := by
    intro hfne
    rw [hkeys]
    by_cases hfmem : f ∈ keysOf db
    · exact List.mem_append_left _ (List.mem_append_left _ hfmem)
    · have hin : f ∈ admittedKeys (keysOf db) f o := by
        rw [admittedKeys_eq, if_pos ⟨hfne, hfmem⟩]
        simp
      exact List.mem_append_left _ (List.mem_append_right _ hin)
  have hmemo : o ≠ "" → o ∈ keysOf db1 := by
    intro hone
    rw [hkeys]
    by_cases homem : o ∈ keysOf db
    · exact List.mem_append_left _ (List.mem_append_left _ homem)
    · have hin : o ∈ admittedKeys (keysOf db) f o := by
        rw [admittedKeys_eq]
        refine List.mem_append_right _ ?_
        rw [if_pos ⟨hone, homem⟩]
        simp
      exact List.mem_append_left _ (List.mem_append_right _ hin)
  simp only [generate,
    show db1.encryptions.map (·.encryptionKey) = keysOf db1 from rfl,
    insertLegacyEncryption_skip _ _ _ _ _ (fun hcon => hcon.2 (hmemf hcon.1)),
    insertLegacyEncryption_skip _ _ _ _ _ (fun hcon => hcon.2 (hmemo hcon.1))]
  obtain ⟨e2, he2⟩ := selectLatest_of_ne_nil db1.encryptions hne
  rw [he2]
  exact ⟨e2, rfl⟩

theorem generate_idempotent_witness :
    generate "k" "k" [1, 2, 3] ⟨[], [], [], 0, 0⟩ =
      .ok (⟨[⟨0, "1", "k", 0⟩, ⟨1, "2", "k", 1⟩], [], [], 2, 2⟩, ⟨1, "2", "k", 1⟩) ∧
    ∃ e2, generate "k" "k" [9, 9, 9]
        ⟨[⟨0, "1", "k", 0⟩, ⟨1, "2", "k", 1⟩], [], [], 2, 2⟩ =
      .ok (⟨[⟨0, "1", "k", 0⟩, ⟨1, "2", "k", 1⟩], [], [], 2, 2⟩, e2) :=
  ⟨rfl, generate_idempotent "k" "k" [1, 2, 3] [9, 9, 9] ⟨[], [], [], 0, 0⟩ _ _ rfl⟩

/-- Claim C9 (amended): `create` fails with the validation error exactly
when the name is missing or empty (JS falsiness); when the key bytes are
missing or empty it fills them with the base64 encoding of the 24 random
bytes; every persisted row has non-empty key bytes. -/
theorem create_validation_and_key_fill (db : DB) (rnd : List Nat)
    (p : EncryptionDraft) (hrnd : rnd.length = 24) :
    ((p.name = none ∨ p.name = some "") → create db rnd p = .error nameError) ∧
    (∀ nm, p.name = some nm → nm ≠ "" →
      ∃ e, create db rnd p =
          .ok ({ db with encryptions := db.encryptions ++ [e],
                         nextId := db.nextId + 1, now := db.now + 1 }, e) ∧
        e.name = nm ∧ e.encryptionKey ≠ "" ∧
        ((p.encryptionKey = none ∨ p.encryptionKey = some "") →
          e.encryptionKey = base64encode rnd)) := by
  obtain ⟨pn, pk⟩ := p
  have hb : base64encode rnd ≠ "" :=
    base64encode_ne_empty rnd (by intro h; rw [h] at hrnd; simp at hrnd)
  constructor
  · rintro (h | h)
    · change pn = none at h
      subst h
      simp [create]
    · change pn = some "" at h
      subst h
      simp [create]
  · intro nm hnm hne
    change pn = some nm at hnm
    subst hnm
    cases pk with
    | none =>
        exact ⟨⟨db.nextId, nm, base64encode rnd, db.now⟩,
          by simp [create, hne], rfl, hb, fun _ => rfl⟩
    | some k =>
        by_cases hk : k = ""
        · subst hk
          exact ⟨⟨db.nextId, nm, base64encode rnd, db.now⟩,
            by simp [create, hne], rfl, hb, fun _ => rfl⟩
        · refine ⟨⟨db.nextId, nm, k, db.now⟩,
            by simp [create, hne, hk], rfl, hk, ?_⟩
          rintro (h | h)
          · exact absurd h (by simp)
          · injection h with h2
            exact absurd h2 hk

theorem create_validation_and_key_fill_witness :
    ([0, 1, 2, 3, 4, 5, 6, 7, 8, 9, 10, 11, 12, 13, 14, 15, 16, 17, 18, 19,
      20, 21, 22, 23] : List Nat).length = 24 ∧
    ∃ e, create ⟨[], [], [], 0, 0⟩
          [0, 1, 2, 3, 4, 5, 6, 7, 8, 9, 10, 11, 12, 13, 14, 15, 16, 17, 18,
           19, 20, 21, 22, 23] ⟨some "key1", none⟩ =
        .ok ({ (⟨[], [], [], 0, 0⟩ : DB) with
                encryptions := (⟨[], [], [], 0, 0⟩ : DB).encryptions ++ [e],
                nextId := (⟨[], [], [], 0, 0⟩ : DB).nextId + 1,
                now := (⟨[], [], [], 0, 0⟩ : DB).now + 1 }, e) ∧
      e.name = "key1" ∧ e.encryptionKey ≠ "" ∧
      (((⟨some "key1", none⟩ : EncryptionDraft).encryptionKey = none ∨
        (⟨some "key1", none⟩ : EncryptionDraft).encryptionKey = some "") →
        e.encryptionKey = base64encode
          [0, 1, 2, 3, 4, 5, 6, 7, 8, 9, 10, 11, 12, 13, 14, 15, 16, 17, 18,
           19, 20, 21, 22, 23]) :=
  ⟨rfl,
   (create_validation_and_key_fill ⟨[], [], [], 0, 0⟩
      [0, 1, 2, 3, 4, 5, 6, 7, 8, 9, 10, 11, 12, 13, 14, 15, 16, 17, 18, 19,
       20, 21, 22, 23] ⟨some "key1", none⟩ rfl).2 "key1" rfl (by decide)⟩

/-- Claim C9 counterexample: a draft whose name field is present but empty
is not missing, yet `create` rejects it with the validation error, so
failure is not equivalent to a missing name. -/
theorem create_empty_name_counterexample :
    (some "" ≠ (none : Option String)) ∧
    create ⟨[], [], [], 0, 0⟩ [1, 2, 3] ⟨some "", some "k"⟩ = .error nameError :=
  ⟨by decide, rfl⟩

theorem encrypt_decrypt_roundtrip_witness :
    ((⟨[⟨1, "1", "k1", 4⟩], [], [], 2, 5⟩ : DB).encryptions ≠ [] ∧
      ∃ e ct, encrypt ⟨[⟨1, "1", "k1", 4⟩], [], [], 2, 5⟩ "secret" = .ok (e, ct) ∧
        decrypt ⟨[⟨1, "1", "k1", 4⟩], [], [], 2, 5⟩ ⟨"cid", ct, false⟩ (some e) =
          .ok (e, "secret")) :=
  ⟨by decide,
   encrypt_decrypt_roundtrip ⟨[⟨1, "1", "k1", 4⟩], [], [], 2, 5⟩ "secret" "cid" false
     (by decide)⟩

end Flowise
